import Mathlib

/-!
Verification of the Gutenberg book-search core (`gutenberg_demo_V16.py`).

The development shallowly embeds the two components the specification
singles out:

* the text-analysis pipeline — `remove_html_tags`, punctuation stripping,
  lowercasing, whitespace tokenization, stop-word filtering, frequency
  counting and top-K selection (`get_top_ten_words`);
* the persistence layer `BookManager` over the SQLite table
  `books(id AUTOINCREMENT, title, word, frequency)` —
  `save_book_data`, `delete_book_data`, `fetch_book_data`,
  `fetch_all_titles`.

Machine-level caveats of the embedding are noted at each definition.
-/

namespace Gutenberg

/-- The 32 characters of Python's `string.punctuation`, namely the ASCII
ranges 33–47 (`!"#$%&'()*+,-./`), 58–64 (`:;<=>?@`), 91–96 and 123–126.
`text.translate(self.translator)` deletes exactly these characters. -/
def isPunctChar (c : Char) : Bool :=
  (33 ≤ c.toNat && c.toNat ≤ 47) || (58 ≤ c.toNat && c.toNat ≤ 64) ||
  (91 ≤ c.toNat && c.toNat ≤ 96) || (123 ≤ c.toNat && c.toNat ≤ 126)

/-- Whitespace recognised by Python's `str.split()` (ASCII part:
space, `\t`, `\n`, `\r`, `\v` (11), `\f` (12)).  The Unicode whitespace
code points accepted by Python are not modelled; no claim depends on
which character class is used for splitting. -/
def isSpaceChar (c : Char) : Bool :=
  c = ' ' || c = '\t' || c = '\n' || c = '\r' || c.toNat = 11 || c.toNat = 12

/-- Model of `text.translate(self.translator).lower()`: delete the punctuation
characters, then lowercase.  `Char.toLower` lowercases the ASCII range,
which coincides with Python `str.lower` there; non-ASCII case folding is
outside the model (every claim is insensitive to the choice). -/
def clean_text (s : String) : List Char :=
  (s.data.filter (fun c => !isPunctChar c)).map Char.toLower

/-- Accumulator pass behind `splitWs`; `acc` holds the current word
reversed. -/
def splitWsAux : List Char → List Char → List String
  | [], acc => if acc.isEmpty then [] else [⟨acc.reverse⟩]
  | c :: cs, acc =>
    if isSpaceChar c then
      if acc.isEmpty then splitWsAux cs [] else ⟨acc.reverse⟩ :: splitWsAux cs []
    else splitWsAux cs (c :: acc)

/-- Python `str.split()` with no argument: split on runs of whitespace,
discarding empty tokens. -/
def splitWs (l : List Char) : List String := splitWsAux l []

/-- The module-level `STOP_WORDS` set, verbatim from the source
(including the mojibake entry `'gutenbergâ„¢'`).  A Python set literal
ignores duplicate entries, and so does list membership here. -/
def STOP_WORDS : List String := [
  "the", "and", "to", "of", "a", "in", "is", "it", "for", "on", "with",
  "by", "at", "this", "but", "or", "an", "be", "from", "as", "that", "are",
  "was", "were", "will", "would", "should", "could", "can", "may", "might", "must",
  "project", "gutenberg", "gutenbergâ„¢", "ebook", "edition", "online", "http", "www",
  "i", "you", "he", "she", "we", "they", "me", "him", "her", "us", "them",
  "my", "your", "his", "its", "our", "their", "mine", "yours", "ours", "theirs",
  "these", "those", "which", "what", "who", "whom", "whose", "when", "where", "why", "how",
  "am", "been", "being",
  "have", "has", "had", "having",
  "do", "does", "did", "doing",
  "if", "than", "then", "so", "because", "although", "though", "while", "before", "after",
  "about", "into", "through", "over", "under", "again", "further", "up", "down", "out",
  "very", "more", "most", "some", "any", "each", "few", "many", "such",
  "only", "just", "now", "too", "also", "even", "still", "yet",
  "thou", "thee", "thy", "thine", "hath", "doth", "shalt", "art",
  "said", "say", "says", "shall", "come", "came", "go", "went", "know", "knew",
  "look", "looked", "see", "saw", "felt", "thought", "told", "made", "make", "found",
  "asked", "replied"]

/-- Index of the first occurrence of `a` in the list (`l.length` when
absent).  Used to state the first-occurrence tie-break of
`Counter.most_common`. -/
def firstIdx {α : Type} [DecidableEq α] (a : α) : List α → Nat
  | [] => 0
  | x :: xs => if x = a then 0 else firstIdx a xs + 1

/-- Pass behind `dedupFirst`: `seen` records the elements already
emitted. -/
def dedupFirstAux {α : Type} [DecidableEq α] (seen : List α) : List α → List α
  | [] => []
  | x :: xs =>
    if x ∈ seen then dedupFirstAux seen xs
    else x :: dedupFirstAux (x :: seen) xs

/-- The key order of a Python `dict`/`Counter` built by iterating a
list: each element once, in order of first occurrence. -/
def dedupFirst {α : Type} [DecidableEq α] (l : List α) : List α :=
  dedupFirstAux [] l

/-- The (key, count) pairs of `Counter(words)`, in `Counter` iteration
order (insertion order of first occurrences). -/
def counterItems (toks : List String) : List (String × Nat) :=
  (dedupFirst toks).map (fun w => (w, toks.count w))

/-- Stable insertion into a frequency-descending list: the new element
goes before the first entry of smaller-or-equal count.  Combined with
`foldr` below this realises the stable descending sort performed by
`Counter.most_common` (`heapq.nlargest` over the items, which is
documented and implemented as stable). -/
def insertByFreq (x : String × Nat) : List (String × Nat) → List (String × Nat)
  | [] => [x]
  | y :: ys => if y.2 ≤ x.2 then x :: y :: ys else y :: insertByFreq x ys

/-- Stable sort of counter items by count descending. -/
def sortFreq (l : List (String × Nat)) : List (String × Nat) :=
  l.foldr insertByFreq []

/-- Model of `Counter(words).most_common(n)`. -/
def most_common (n : Nat) (toks : List String) : List (String × Nat) :=
  (sortFreq (counterItems toks)).take n

/-- The filtered token stream of `get_top_ten_words`:
`[word for word in cleaned_text.split() if word not in STOP_WORDS]`. -/
def filteredTokens (text : String) (stop : List String) : List String :=
  (splitWs (clean_text text)).filter (fun w => decide (w ∉ stop))

/-- Model of `BookSearchApp.get_top_ten_words`, parametrised by the stop-word set
(the source reads the module constant `STOP_WORDS`) and the limit (the
source reads `TOP_WORDS_LIMIT = 10`). -/
def get_top_ten_words (text : String) (stop : List String) (limit : Nat) :
    List (String × Nat) :=
  let words := filteredTokens text stop
  if words = [] then [] else most_common limit words

/-! ## `remove_html_tags`

The source substitutes the regex `<.*?>` (no `DOTALL` flag, so `.`
matches any character except `\n`) by the empty string.  `re.sub` scans
left to right; a match can only start at a `<`; from a given `<` the
lazy `.*?` extends to the first following `>` — failing if a `\n`
intervenes, in which case the engine resumes at the next position. -/

/-- Scan for the `>` closing a candidate match of `<.*?>`: `some rest`
(the characters after the `>`) if a `>` occurs before any `\n`,
otherwise `none`. -/
def findClose : List Char → Option (List Char)
  | [] => none
  | c :: cs => if c = '>' then some cs else if c = '\n' then none else findClose cs

/-- Fuel-indexed tag remover (structural recursion so that the kernel
can evaluate it).  `removeTags` supplies `l.length` as fuel; each
recursive call strictly shrinks the list (`findClose_length`), so the
`0, l => l` fallback is never reached from that entry point. -/
def removeTagsFuel : Nat → List Char → List Char
  | _, [] => []
  | 0, l => l
  | fuel + 1, c :: cs =>
    if c = '<' then
      match findClose cs with
      | some rest => removeTagsFuel fuel rest
      | none => c :: removeTagsFuel fuel cs
    else c :: removeTagsFuel fuel cs

/-- Model of `re.sub` of the pattern `<.*?>` by the empty string, on a list of characters. -/
def removeTags (l : List Char) : List Char := removeTagsFuel l.length l

/-- Model of `remove_html_tags` from the source. -/
def remove_html_tags (s : String) : String := ⟨removeTags s.data⟩

/-- Holds when `l` contains a substring of the shape `<` … `>` with no newline
between the brackets — exactly the shape the regex `<.*?>` matches. -/
def HasTag (l : List Char) : Prop :=
  ∃ p m q, l = p ++ '<' :: (m ++ '>' :: q) ∧ '\n' ∉ m

/-- Holds when `l` contains a `>` not preceded by any newline. -/
def GtBeforeNl (l : List Char) : Prop :=
  ∃ m q, l = m ++ '>' :: q ∧ '\n' ∉ m

/-! ## `BookManager` (the record store)

The SQLite table is `books(id INTEGER PRIMARY KEY AUTOINCREMENT,
title TEXT, word TEXT, frequency INTEGER)`.  A database state is the
list of live rows in rowid order together with the next id the
AUTOINCREMENT counter will hand out.  A full scan of the table without
`ORDER BY` (as in `fetch_book_data`'s `SELECT`) returns rows in rowid
order, which is the order of `rows`. -/

/-- One row of the `books` table. -/
structure Row where
  id : Nat
  title : String
  word : String
  freq : Int
deriving DecidableEq

/-- The visible state of the store. -/
structure DB where
  rows : List Row
  nextId : Nat
deriving DecidableEq

/-- The store created by `BookManager.__init__` on a fresh database
(SQLite rowids start at 1). -/
def emptyDB : DB := ⟨[], 1⟩

/-- SQLite's built-in `LOWER`, which folds only ASCII `A`–`Z`
(`Char.toLower` does exactly that). -/
def lowerS (s : String) : String := ⟨s.data.map Char.toLower⟩

/-- The rows `executemany` inserts for
`[(title, word, freq) for word, freq in top_words]`, receiving
consecutive AUTOINCREMENT ids starting at `n`. -/
def newRows (n : Nat) (title : String) : List (String × Int) → List Row
  | [] => []
  | (w, f) :: ws => ⟨n, title, w, f⟩ :: newRows (n + 1) title ws

/-- Model of `BookManager.save_book_data` (the successful path: every row
inserted, then committed). -/
def save_book_data (db : DB) (title : String) (ws : List (String × Int)) : DB :=
  ⟨db.rows ++ newRows db.nextId title ws, db.nextId + ws.length⟩

/-- Model of `BookManager.delete_book_data`, i.e. `DELETE FROM books WHERE title = ?`
— SQLite `=` on TEXT is case-sensitive, so this is exact match.
AUTOINCREMENT never reuses ids, so `nextId` is unchanged. -/
def delete_book_data (db : DB) (title : String) : DB :=
  ⟨db.rows.filter (fun r => decide (r.title ≠ title)), db.nextId⟩

/-- Model of `BookManager.delete_all_records`, i.e. `DELETE FROM books`. -/
def delete_all_records (db : DB) : DB := ⟨[], db.nextId⟩

/-- Model of `BookManager.fetch_book_data`:
`SELECT word, frequency FROM books WHERE LOWER(title) = LOWER(?)`,
a full scan returning matches in rowid order. -/
def fetch_book_data (db : DB) (title : String) : List (String × Int) :=
  (db.rows.filter (fun r => decide (lowerS r.title = lowerS title))).map
    (fun r => (r.word, r.freq))

/-- Model of `BookManager.fetch_all_titles`:
`SELECT DISTINCT title FROM books ORDER BY id DESC` — SQLite sorts the
rows by id descending and the DISTINCT step keeps the first occurrence
of each title in that order. -/
def fetch_all_titles (db : DB) : List String :=
  dedupFirst (db.rows.reverse.map Row.title)

/-- Id of the first row in `rs` whose title is `t` (`0` when none). -/
def firstRowIdIn : List Row → String → Nat
  | [], _ => 0
  | r :: rs, t => if r.title = t then r.id else firstRowIdIn rs t

/-- Id of the most recently inserted row carrying title `t` — the
"internal insertion identity" by which `fetch_all_titles` orders. -/
def lastInsertId (db : DB) (t : String) : Nat := firstRowIdIn db.rows.reverse t

/-- Invariant of every store state the code can reach: rowids strictly
increase along the table and stay below the AUTOINCREMENT counter. -/
def WF (db : DB) : Prop :=
  (db.rows.map Row.id).Pairwise (· < ·) ∧ ∀ r ∈ db.rows, r.id < db.nextId

instance (db : DB) : Decidable (WF db) := by
  unfold WF; infer_instance

/-- Connection-visible state after `save_book_data` fails on the `k`-th
parameter set of `executemany` (0-indexed): SQLite has already applied
the first `k` INSERTs inside the still-open implicit transaction, the
`except sqlite3.Error` handler raises `RuntimeError` without issuing a
rollback, and the same connection's later `SELECT`s see those pending
rows (any later `commit` persists them).  Modelled from the semantics
of the `sqlite3` library the source calls; the source itself contains
no rollback on this path. -/
def save_book_data_failing (db : DB) (title : String)
    (ws : List (String × Int)) (k : Nat) : DB :=
  ⟨db.rows ++ newRows db.nextId title (ws.take k), db.nextId + k⟩

/-! ## Lemmas: first-occurrence deduplication -/

theorem firstIdx_cons {α : Type} [DecidableEq α] (a x : α) (xs : List α) :
    firstIdx a (x :: xs) = if x = a then 0 else firstIdx a xs + 1 := rfl

theorem mem_dedupFirstAux {α : Type} [DecidableEq α] :
    ∀ (l seen : List α) (y : α),
      y ∈ dedupFirstAux seen l ↔ (y ∈ l ∧ y ∉ seen) := by
  intro l
  induction l with
  | nil => intro seen y; simp [dedupFirstAux]
  | cons x xs ih =>
    intro seen y
    by_cases hx : x ∈ seen
    · simp only [dedupFirstAux, if_pos hx, ih]
      constructor
      · rintro ⟨hy, hns⟩; exact ⟨List.mem_cons_of_mem _ hy, hns⟩
      · rintro ⟨hy, hns⟩
        rcases List.mem_cons.mp hy with rfl | hy
        · exact absurd hx hns
        · exact ⟨hy, hns⟩
    · simp only [dedupFirstAux, if_neg hx, List.mem_cons, ih]
      constructor
      · rintro (rfl | ⟨hy, hns⟩)
        · exact ⟨Or.inl rfl, hx⟩
        · exact ⟨Or.inr hy, fun hs => hns (Or.inr hs)⟩
      · rintro ⟨rfl | hy, hns⟩
        · exact Or.inl rfl
        · by_cases hyx : y = x
          · exact Or.inl hyx
          · exact Or.inr ⟨hy, by simp [List.mem_cons, hyx, hns]⟩

theorem mem_dedupFirst {α : Type} [DecidableEq α] (l : List α) (y : α) :
    y ∈ dedupFirst l ↔ y ∈ l := by
  simp [dedupFirst, mem_dedupFirstAux]

theorem pairwise_firstIdx_dedupFirstAux {α : Type} [DecidableEq α] :
    ∀ (l seen : List α),
      (dedupFirstAux seen l).Pairwise fun a b => firstIdx a l < firstIdx b l := by
  intro l
  induction l with
  | nil => intro seen; simp [dedupFirstAux]
  | cons x xs ih =>
    intro seen
    by_cases hx : x ∈ seen
    · rw [dedupFirstAux, if_pos hx]
      refine (ih seen).imp_of_mem ?_
      intro a b ha hb hab
      have hax : a ≠ x := fun h =>
        ((mem_dedupFirstAux xs seen a).mp ha).2 (h ▸ hx)
      have hbx : b ≠ x := fun h =>
        ((mem_dedupFirstAux xs seen b).mp hb).2 (h ▸ hx)
      rw [firstIdx_cons, firstIdx_cons, if_neg (fun h => hax h.symm),
        if_neg (fun h => hbx h.symm)]
      exact Nat.succ_lt_succ hab
    · rw [dedupFirstAux, if_neg hx]
      rw [List.pairwise_cons]
      constructor
      · intro b hb
        have hbx : b ≠ x := fun h =>
          ((mem_dedupFirstAux xs (x :: seen) b).mp hb).2 (h ▸ List.mem_cons_self x seen)
        rw [firstIdx_cons, firstIdx_cons, if_pos rfl, if_neg (fun h => hbx h.symm)]
        exact Nat.succ_pos _
      · refine (ih (x :: seen)).imp_of_mem ?_
        intro a b ha hb hab
        have hax : a ≠ x := fun h =>
          ((mem_dedupFirstAux xs (x :: seen) a).mp ha).2 (h ▸ List.mem_cons_self x seen)
        have hbx : b ≠ x := fun h =>
          ((mem_dedupFirstAux xs (x :: seen) b).mp hb).2 (h ▸ List.mem_cons_self x seen)
        rw [firstIdx_cons, firstIdx_cons, if_neg (fun h => hax h.symm),
          if_neg (fun h => hbx h.symm)]
        exact Nat.succ_lt_succ hab

theorem pairwise_firstIdx_dedupFirst {α : Type} [DecidableEq α] (l : List α) :
    (dedupFirst l).Pairwise fun a b => firstIdx a l < firstIdx b l :=
  pairwise_firstIdx_dedupFirstAux l []

theorem nodup_dedupFirst {α : Type} [DecidableEq α] (l : List α) :
    (dedupFirst l).Nodup :=
  (pairwise_firstIdx_dedupFirst l).imp fun h heq => absurd (heq ▸ h) (Nat.lt_irrefl _)

/-! ## Lemmas: the stable descending sort of `most_common` -/

theorem mem_insertByFreq (x z : String × Nat) (s : List (String × Nat)) :
    z ∈ insertByFreq x s ↔ z = x ∨ z ∈ s := by
  induction s with
  | nil => simp [insertByFreq]
  | cons y ys ih =>
    by_cases h : y.2 ≤ x.2
    · simp only [insertByFreq, if_pos h, List.mem_cons]
    · simp only [insertByFreq, if_neg h, List.mem_cons, ih]
      tauto

theorem mem_sortFreq (z : String × Nat) :
    ∀ l : List (String × Nat), z ∈ sortFreq l → z ∈ l := by
  intro l
  induction l with
  | nil => simp [sortFreq]
  | cons x xs ih =>
    intro hz
    have : z ∈ insertByFreq x (sortFreq xs) := hz
    rcases (mem_insertByFreq x z (sortFreq xs)).mp this with rfl | hz'
    · exact List.mem_cons_self _ _
    · exact List.mem_cons_of_mem _ (ih hz')

theorem pairwise_insertByFreq {P : String × Nat → String × Nat → Prop}
    {x : String × Nat} :
    ∀ {s : List (String × Nat)},
      (s.Pairwise fun a b => b.2 < a.2 ∨ (a.2 = b.2 ∧ P a b)) →
      (∀ y ∈ s, P x y) →
      (insertByFreq x s).Pairwise fun a b => b.2 < a.2 ∨ (a.2 = b.2 ∧ P a b) := by
  intro s
  induction s with
  | nil => intro _ _; simp [insertByFreq]
  | cons y ys ih =>
    intro hs hx
    by_cases h : y.2 ≤ x.2
    · rw [insertByFreq, if_pos h, List.pairwise_cons]
      refine ⟨?_, hs⟩
      intro z hz
      have hzle : z.2 ≤ x.2 := by
        rcases List.mem_cons.mp hz with rfl | hz'
        · exact h
        · rcases (List.pairwise_cons.mp hs).1 z hz' with hlt | ⟨heq, _⟩
          · exact Nat.le_trans (Nat.le_of_lt hlt) h
          · exact heq ▸ h
      rcases Nat.lt_or_ge z.2 x.2 with hlt | hge
      · exact Or.inl hlt
      · exact Or.inr ⟨Nat.le_antisymm hge hzle, hx z hz⟩
    · rw [insertByFreq, if_neg h, List.pairwise_cons]
      constructor
      · intro z hz
        rcases (mem_insertByFreq x z ys).mp hz with rfl | hz'
        · exact Or.inl (Nat.lt_of_not_le h)
        · exact (List.pairwise_cons.mp hs).1 z hz'
      · exact ih (List.pairwise_cons.mp hs).2
          (fun z hz => hx z (List.mem_cons_of_mem _ hz))

theorem pairwise_sortFreq {P : String × Nat → String × Nat → Prop} :
    ∀ {l : List (String × Nat)}, l.Pairwise P →
      (sortFreq l).Pairwise fun a b => b.2 < a.2 ∨ (a.2 = b.2 ∧ P a b) := by
  intro l
  induction l with
  | nil => intro _; simp [sortFreq]
  | cons x xs ih =>
    intro hl
    have hcons := List.pairwise_cons.mp hl
    exact pairwise_insertByFreq (ih hcons.2)
      (fun y hy => hcons.1 y (mem_sortFreq y xs hy))

/-! ## Lemmas: `get_top_ten_words` -/

theorem pairwise_counterItems (toks : List String) :
    (counterItems toks).Pairwise fun a b => firstIdx a.1 toks < firstIdx b.1 toks :=
  List.pairwise_map.mpr (pairwise_firstIdx_dedupFirst toks)

theorem mem_counterItems {toks : List String} {p : String × Nat}
    (hp : p ∈ counterItems toks) : p.1 ∈ toks ∧ p.2 = toks.count p.1 := by
  rcases List.mem_map.mp hp with ⟨w, hw, rfl⟩
  exact ⟨(mem_dedupFirst toks w).mp hw, rfl⟩

theorem mem_get_top_ten_words {text : String} {stop : List String} {limit : Nat}
    {p : String × Nat} (hp : p ∈ get_top_ten_words text stop limit) :
    p ∈ counterItems (filteredTokens text stop) := by
  unfold get_top_ten_words at hp
  by_cases h : filteredTokens text stop = []
  · simp [h] at hp
  · rw [if_neg h] at hp
    exact mem_sortFreq p _ ((List.take_sublist _ _).subset hp)

theorem not_stop_of_mem_rank {text : String} {stop : List String} {limit : Nat}
    {p : String × Nat} (hp : p ∈ get_top_ten_words text stop limit) :
    p.1 ∉ stop := by
  have h1 : p.1 ∈ filteredTokens text stop := (mem_counterItems (mem_get_top_ten_words hp)).1
  have h2 := (List.mem_filter.mp h1).2
  exact of_decide_eq_true h2

/-- C1: for every input text, stop-word set and limit,
`get_top_ten_words` returns its entries sorted by frequency descending,
equal frequencies ordered by first occurrence in the filtered token
stream; on `"the cat sat on the mat. The CAT ran."` with stop words
`{the, on}` and limit 10 it returns exactly
`[("cat",2), ("sat",1), ("mat",1), ("ran",1)]`. -/
theorem spec_C1 :
    (∀ (text : String) (stop : List String) (limit : Nat),
      (get_top_ten_words text stop limit).Pairwise fun a b =>
        b.2 < a.2 ∨ (a.2 = b.2 ∧
          firstIdx a.1 (filteredTokens text stop) <
            firstIdx b.1 (filteredTokens text stop))) ∧
    get_top_ten_words "the cat sat on the mat. The CAT ran." ["the", "on"] 10 =
      [("cat", 2), ("sat", 1), ("mat", 1), ("ran", 1)] := by
  constructor
  · intro text stop limit
    unfold get_top_ten_words
    by_cases h : filteredTokens text stop = []
    · simp [h]
    · rw [if_neg h]
      exact (pairwise_sortFreq
        (pairwise_counterItems (filteredTokens text stop))).sublist
        (List.take_sublist _ _)
  · decide

/-- C6: `get_top_ten_words` returns at most `limit` entries, every
returned frequency is at least 1, and when no tokens survive the
stop-word filter the result is the empty list (the function is total —
it never raises). -/
theorem spec_C6 (text : String) (stop : List String) (limit : Nat) :
    (get_top_ten_words text stop limit).length ≤ limit ∧
    ((get_top_ten_words text stop limit).all fun p => decide (1 ≤ p.2)) = true ∧
    (filteredTokens text stop = [] → get_top_ten_words text stop limit = []) := by
  refine ⟨?_, ?_, ?_⟩
  · unfold get_top_ten_words
    by_cases h : filteredTokens text stop = []
    · simp [h]
    · rw [if_neg h]
      exact List.length_take_le _ _
  · rw [List.all_eq_true]
    intro p hp
    rcases mem_counterItems (mem_get_top_ten_words hp) with ⟨hmem, hcount⟩
    exact decide_eq_true (hcount ▸ List.count_pos_iff.mpr hmem)
  · intro h
    unfold get_top_ten_words
    rw [if_pos h]

/-- Witness for C6: both conjuncts observed on concrete inputs — a
nonempty text obeys the length bound, and a text whose every token is a
stop word yields `[]`. -/
theorem spec_C6_witness :
    (get_top_ten_words "cat cat dog" [] 10).length ≤ 10 ∧
    get_top_ten_words "the the" ["the"] 10 = [] :=
  ⟨(spec_C6 "cat cat dog" [] 10).1,
   (spec_C6 "the the" ["the"] 10).2.2 (by decide)⟩

/-- C7: no word of the module stop-word set `STOP_WORDS` ever appears in
the output of `get_top_ten_words`, regardless of input casing — tokens
are lowercased before the (case-sensitive) stop-word test. -/
theorem spec_C7 (text : String) (p : String × Nat)
    (hp : p ∈ get_top_ten_words text STOP_WORDS 10) : p.1 ∉ STOP_WORDS :=
  not_stop_of_mem_rank hp

/-- Witness for C7: on `"The CAT the cat"` the ranked output contains
`("cat", 2)`, whose word is not a stop word. -/
theorem spec_C7_witness : ("cat" : String) ∉ STOP_WORDS :=
  spec_C7 "The CAT the cat" ("cat", 2) (by decide)

/-! ## Lemmas: `remove_html_tags` -/

theorem findClose_length :
    ∀ {cs rest : List Char}, findClose cs = some rest → rest.length < cs.length := by
  intro cs
  induction cs with
  | nil => intro rest h; simp [findClose] at h
  | cons c cs ih =>
    intro rest h
    rw [findClose] at h
    by_cases h1 : c = '>'
    · rw [if_pos h1] at h
      cases h
      exact Nat.lt_succ_self _
    · rw [if_neg h1] at h
      by_cases h2 : c = '\n'
      · rw [if_pos h2] at h; cases h
      · rw [if_neg h2] at h
        exact Nat.lt_succ_of_lt (ih h)

theorem not_hasTag_nil : ¬ HasTag [] := by
  rintro ⟨p, m, q, h, -⟩
  cases p <;> simp at h

theorem not_hasTag_cons {c : Char} {t : List Char} (hc : c ≠ '<')
    (ht : ¬ HasTag t) : ¬ HasTag (c :: t) := by
  rintro ⟨p, m, q, h, hm⟩
  cases p with
  | nil =>
    rw [List.nil_append, List.cons.injEq] at h
    exact hc h.1
  | cons x p' =>
    rw [List.cons_append, List.cons.injEq] at h
    exact ht ⟨p', m, q, h.2, hm⟩

theorem not_hasTag_lt_cons {t : List Char} (ht : ¬ HasTag t)
    (hg : ¬ GtBeforeNl t) : ¬ HasTag ('<' :: t) := by
  rintro ⟨p, m, q, h, hm⟩
  cases p with
  | nil =>
    rw [List.nil_append, List.cons.injEq] at h
    exact hg ⟨m, q, h.2, hm⟩
  | cons x p' =>
    rw [List.cons_append, List.cons.injEq] at h
    exact ht ⟨p', m, q, h.2, hm⟩

theorem not_gtBeforeNl_nil : ¬ GtBeforeNl [] := by
  rintro ⟨m, q, h, -⟩
  cases m <;> simp at h

theorem not_gtBeforeNl_nl_cons (t : List Char) : ¬ GtBeforeNl ('\n' :: t) := by
  rintro ⟨m, q, h, hm⟩
  cases m with
  | nil =>
    rw [List.nil_append, List.cons.injEq] at h
    exact absurd h.1.symm (by decide)
  | cons x m' =>
    rw [List.cons_append, List.cons.injEq] at h
    exact hm (h.1 ▸ List.mem_cons_self x m')

theorem not_gtBeforeNl_cons {c : Char} {t : List Char} (hc : c ≠ '>')
    (ht : ¬ GtBeforeNl t) : ¬ GtBeforeNl (c :: t) := by
  rintro ⟨m, q, h, hm⟩
  cases m with
  | nil =>
    rw [List.nil_append, List.cons.injEq] at h
    exact hc h.1
  | cons x m' =>
    rw [List.cons_append, List.cons.injEq] at h
    exact ht ⟨m', q, h.2, fun hmem => hm (List.mem_cons_of_mem _ hmem)⟩

theorem removeTagsFuel_nil (fuel : Nat) : removeTagsFuel fuel [] = [] := by
  cases fuel <;> rfl

theorem removeTagsFuel_cons (fuel : Nat) (c : Char) (cs : List Char) :
    removeTagsFuel (fuel + 1) (c :: cs) =
      if c = '<' then
        match findClose cs with
        | some rest => removeTagsFuel fuel rest
        | none => c :: removeTagsFuel fuel cs
      else c :: removeTagsFuel fuel cs := rfl

/-- After a `<` whose candidate match fails (no `>` before a newline),
re-scanning the remainder can emit no `>` before emitting that
newline. -/
theorem removeTagsFuel_noGt :
    ∀ (fuel : Nat) (cs : List Char), cs.length ≤ fuel →
      findClose cs = none → ¬ GtBeforeNl (removeTagsFuel fuel cs) := by
  intro fuel
  induction fuel with
  | zero =>
    intro cs hlen _
    have hnil : cs = [] := List.eq_nil_of_length_eq_zero (Nat.le_zero.mp hlen)
    subst hnil
    rw [removeTagsFuel_nil]
    exact not_gtBeforeNl_nil
  | succ fuel ih =>
    intro cs hlen hfc
    cases cs with
    | nil =>
      rw [removeTagsFuel_nil]
      exact not_gtBeforeNl_nil
    | cons c cs' =>
      rw [findClose] at hfc
      have hgt : ¬ (c = '>') := by
        intro h; rw [if_pos h] at hfc; cases hfc
      rw [if_neg hgt] at hfc
      have hlen' : cs'.length ≤ fuel := Nat.le_of_succ_le_succ hlen
      by_cases hnl : c = '\n'
      · subst hnl
        rw [removeTagsFuel_cons, if_neg (by decide : ¬ (('\n' : Char) = '<'))]
        exact not_gtBeforeNl_nl_cons _
      · rw [if_neg hnl] at hfc
        rw [removeTagsFuel_cons]
        by_cases hlt : c = '<'
        · rw [if_pos hlt, hfc]
          exact not_gtBeforeNl_cons (hlt ▸ (by decide : ¬ (('<' : Char) = '>')))
            (ih cs' hlen' hfc)
        · rw [if_neg hlt]
          exact not_gtBeforeNl_cons hgt (ih cs' hlen' hfc)

/-- The output of the tag remover contains no newline-free `<` … `>`
span. -/
theorem removeTagsFuel_noTag :
    ∀ (fuel : Nat) (cs : List Char), cs.length ≤ fuel →
      ¬ HasTag (removeTagsFuel fuel cs) := by
  intro fuel
  induction fuel with
  | zero =>
    intro cs hlen
    have hnil : cs = [] := List.eq_nil_of_length_eq_zero (Nat.le_zero.mp hlen)
    subst hnil
    rw [removeTagsFuel_nil]
    exact not_hasTag_nil
  | succ fuel ih =>
    intro cs hlen
    cases cs with
    | nil =>
      rw [removeTagsFuel_nil]
      exact not_hasTag_nil
    | cons c cs' =>
      have hlen' : cs'.length ≤ fuel := Nat.le_of_succ_le_succ hlen
      rw [removeTagsFuel_cons]
      by_cases hlt : c = '<'
      · rw [if_pos hlt]
        cases hfc : findClose cs' with
        | some rest =>
          exact ih rest (Nat.le_of_lt (Nat.lt_of_lt_of_le
            (findClose_length hfc) hlen'))
        | none =>
          exact hlt ▸ not_hasTag_lt_cons (ih cs' hlen')
            (removeTagsFuel_noGt fuel cs' hlen' hfc)
      · rw [if_neg hlt]
        exact not_hasTag_cons hlt (ih cs' hlen')

theorem removeTags_noTag (l : List Char) : ¬ HasTag (removeTags l) :=
  removeTagsFuel_noTag l.length l (Nat.le_refl _)

/-- C3 counterexample: the claim says a tag spanning a line break is
also removed, so on `"<a\nb>c"` it predicts the output `"c"`; the code
(regex `<.*?>` without `DOTALL`) does not remove the span. -/
theorem spec_C3_counterexample : remove_html_tags "<a\nb>c" ≠ "c" := by decide

/-- C3 (amended): `remove_html_tags` removes every non-greedy `<...>`
substring whose interior contains no newline — the output has no such
span left — performs no HTML-entity decoding (it is a pure
character-deletion pass), maps `"<p>Hello</p> <b>World</b>"` to
`"Hello World"`, and leaves a tag spanning a line break in place. -/
theorem spec_C3_amended :
    (∀ s : String, ¬ HasTag (remove_html_tags s).data) ∧
    remove_html_tags "<p>Hello</p> <b>World</b>" = "Hello World" ∧
    remove_html_tags "<a\nb>c" = "<a\nb>c" :=
  ⟨fun s => removeTags_noTag s.data, by decide, by decide⟩

/-! ## Lemmas: the record store -/

theorem newRows_title :
    ∀ (ws : List (String × Int)) (n : Nat) (t : String) (r : Row),
      r ∈ newRows n t ws → r.title = t := by
  intro ws
  induction ws with
  | nil => intro n t r hr; simp [newRows] at hr
  | cons p ws ih =>
    intro n t r hr
    obtain ⟨w, f⟩ := p
    rcases List.mem_cons.mp hr with rfl | hr'
    · rfl
    · exact ih (n + 1) t r hr'

theorem map_pair_newRows :
    ∀ (ws : List (String × Int)) (n : Nat) (t : String),
      (newRows n t ws).map (fun r => (r.word, r.freq)) = ws := by
  intro ws
  induction ws with
  | nil => intro n t; rfl
  | cons p ws ih =>
    intro n t
    obtain ⟨w, f⟩ := p
    rw [newRows, List.map_cons, ih (n + 1)]

theorem filter_ci_newRows (ws : List (String × Int)) (n : Nat) (t t' : String)
    (h : lowerS t = lowerS t') :
    (newRows n t ws).filter (fun r => decide (lowerS r.title = lowerS t')) =
      newRows n t ws := by
  rw [List.filter_eq_self]
  intro r hr
  exact decide_eq_true (newRows_title ws n t r hr ▸ h)

/-- Behaviour of `fetch_book_data` after a save, for any case variant of the saved
title: the previously matching rows (in rowid order) followed by the
newly saved pairs in list order. -/
theorem fetch_save (db : DB) (t t' : String) (ws : List (String × Int))
    (h : lowerS t = lowerS t') :
    fetch_book_data (save_book_data db t ws) t' = fetch_book_data db t' ++ ws := by
  show ((db.rows ++ newRows db.nextId t ws).filter _).map _ = _
  rw [List.filter_append, List.map_append, filter_ci_newRows _ _ _ _ h,
    map_pair_newRows]
  rfl

/-- C2: saving a fresh title and fetching it back — under the very
title or any casing variant — returns exactly the saved (word,
frequency) pairs (list equality, hence set equality). -/
theorem spec_C2 (db : DB) (title t' : String) (ws : List (String × Int))
    (h0 : fetch_book_data db title = []) (hci : lowerS t' = lowerS title) :
    fetch_book_data (save_book_data db title ws) t' = ws := by
  rw [fetch_save db title t' ws hci.symm]
  have ht' : fetch_book_data db t' = fetch_book_data db title := by
    unfold fetch_book_data
    simp only [hci]
  rw [ht', h0, List.nil_append]

/-- Witness for C2: save under `"Moby Dick"` into the fresh store, fetch
`"moby dick"`. -/
theorem spec_C2_witness :
    fetch_book_data (save_book_data emptyDB "Moby Dick" [("whale", 5)])
      "moby dick" = [("whale", 5)] :=
  spec_C2 emptyDB "Moby Dick" "moby dick" [("whale", 5)] (by decide) (by decide)

/-- C4 counterexample: with a row stored under `"ABC"`, deleting
`"abc"` (exact-match delete removes nothing) and then fetching `"abc"`
(case-insensitive) is not empty, though the claim asserts it is for
every store state. -/
theorem spec_C4_counterexample :
    fetch_book_data (delete_book_data ⟨[⟨1, "ABC", "w", 1⟩], 2⟩ "abc") "abc" ≠ [] := by
  decide

/-- C4 (amended): when every stored row matching the title
case-insensitively carries exactly that title — in particular whenever
no casing variants are present — `delete_book_data` followed by
`fetch_book_data` on the same title returns the empty list. -/
theorem spec_C4_amended (db : DB) (title : String)
    (h : ∀ r ∈ db.rows, lowerS r.title = lowerS title → r.title = title) :
    fetch_book_data (delete_book_data db title) title = [] := by
  show ((db.rows.filter _).filter _).map _ = _
  rw [List.map_eq_nil_iff, List.filter_eq_nil_iff]
  intro r hr
  have hmem := List.mem_filter.mp hr
  intro hd
  exact of_decide_eq_true hmem.2 (h r hmem.1 (of_decide_eq_true hd))

/-- Witness for C4 (amended): a store holding one row titled
`"Moby Dick"`; deleting and fetching that exact title yields `[]`. -/
theorem spec_C4_witness :
    fetch_book_data
      (delete_book_data ⟨[⟨1, "Moby Dick", "whale", 5⟩], 2⟩ "Moby Dick")
      "Moby Dick" = [] :=
  spec_C4_amended ⟨[⟨1, "Moby Dick", "whale", 5⟩], 2⟩ "Moby Dick" (by decide)

/-- C5 (code bug): `save_book_data` is not atomic on the failing path.
If `executemany` fails on the second parameter set (e.g.
`save_book_data("T", [("a",1), (None,2)])`, whose second row violates
`word TEXT NOT NULL`), the first INSERT has already been applied inside
the still-open implicit transaction and the `except` handler raises
without a rollback — so the connection then sees the partial row
`("a", 1)`, not the pre-call contents. -/
theorem spec_C5 :
    fetch_book_data (save_book_data_failing emptyDB "T" [("a", 1), ("b", 2)] 1) "T"
      = [("a", 1)] ∧
    fetch_book_data emptyDB "T" = [] := by decide

/-- C9: `delete_book_data` keeps exactly the rows of other titles, in
order (its result is the sublist of rows whose title differs), and
`save_book_data` leaves every pre-existing row in place (the old table
is an unchanged prefix of the new one). -/
theorem spec_C9 (db : DB) (title : String) (ws : List (String × Int)) :
    ((delete_book_data db title).rows.Sublist db.rows ∧
      ∀ r : Row, r ∈ (delete_book_data db title).rows ↔
        r ∈ db.rows ∧ r.title ≠ title) ∧
    (save_book_data db title ws).rows.take db.rows.length = db.rows := by
  refine ⟨⟨List.filter_sublist _, ?_⟩, ?_⟩
  · intro r
    show r ∈ db.rows.filter _ ↔ _
    rw [List.mem_filter, decide_eq_true_eq]
  · show (db.rows ++ newRows db.nextId title ws).take db.rows.length = db.rows
    exact List.take_left _ _

/-- C10: `fetch_book_data` returns matches in rowid (insertion) order:
fetching a title right after saving under it yields the rows that
matched before, then the saved pairs in exactly their saved order — so
on a store with no rows for the title, exactly the saved list. -/
theorem spec_C10 (db : DB) (t : String) (ws : List (String × Int)) :
    fetch_book_data (save_book_data db t ws) t = fetch_book_data db t ++ ws :=
  fetch_save db t t ws rfl

theorem firstRowIdIn_mem :
    ∀ (rs : List Row) (t : String), t ∈ rs.map Row.title →
      ∃ r, r ∈ rs ∧ firstRowIdIn rs t = r.id := by
  intro rs
  induction rs with
  | nil => intro t ht; simp at ht
  | cons r rs ih =>
    intro t ht
    by_cases h : r.title = t
    · exact ⟨r, List.mem_cons_self r rs, by rw [firstRowIdIn, if_pos h]⟩
    · have ht' : t ∈ rs.map Row.title := by
        rcases List.mem_cons.mp (List.map_cons Row.title r rs ▸ ht) with heq | h'
        · exact absurd heq.symm h
        · exact h'
      rcases ih t ht' with ⟨r', hr', heq⟩
      exact ⟨r', List.mem_cons_of_mem _ hr', by rw [firstRowIdIn, if_neg h]; exact heq⟩

/-- Along a list of rows with strictly decreasing ids, an earlier first
occurrence of a title means a larger id of its first matching row. -/
theorem firstRowId_lt :
    ∀ (rs : List Row) (a b : String),
      ((rs.map Row.id).Pairwise fun i j => j < i) →
      a ∈ rs.map Row.title → b ∈ rs.map Row.title →
      firstIdx a (rs.map Row.title) < firstIdx b (rs.map Row.title) →
      firstRowIdIn rs b < firstRowIdIn rs a := by
  intro rs
  induction rs with
  | nil => intro a b _ ha; simp at ha
  | cons r rs ih =>
    intro a b hpw ha hb hlt
    rw [List.map_cons] at ha hb hlt hpw
    by_cases hra : r.title = a
    · have hrb : ¬ (r.title = b) := by
        intro h
        rw [firstIdx_cons, if_pos hra, firstIdx_cons, if_pos h] at hlt
        exact Nat.lt_irrefl 0 hlt
      have hbmem : b ∈ rs.map Row.title := by
        rcases List.mem_cons.mp hb with heq | h'
        · exact absurd heq.symm hrb
        · exact h'
      rcases firstRowIdIn_mem rs b hbmem with ⟨r', hr', heq⟩
      rw [firstRowIdIn, if_neg hrb, firstRowIdIn, if_pos hra, heq]
      exact (List.pairwise_cons.mp hpw).1 r'.id (List.mem_map_of_mem Row.id hr')
    · by_cases hrb : r.title = b
      · exfalso
        rw [firstIdx_cons, if_neg hra, firstIdx_cons, if_pos hrb] at hlt
        exact Nat.not_lt_zero _ hlt
      · rw [firstIdx_cons, if_neg hra, firstIdx_cons, if_neg hrb] at hlt
        have hamem : a ∈ rs.map Row.title := by
          rcases List.mem_cons.mp ha with heq | h'
          · exact absurd heq.symm hra
          · exact h'
        have hbmem : b ∈ rs.map Row.title := by
          rcases List.mem_cons.mp hb with heq | h'
          · exact absurd heq.symm hrb
          · exact h'
        rw [firstRowIdIn, if_neg hrb, firstRowIdIn, if_neg hra]
        exact ih a b (List.pairwise_cons.mp hpw).2 hamem hbmem
          (Nat.lt_of_succ_lt_succ hlt)

/-- C8: on every store state the code can reach (rowids strictly
increasing), `fetch_all_titles` returns the distinct titles present —
no duplicates, exactly the titles of the live rows — ordered by the id
of each title's most recent row, descending (most recently inserted
first). -/
theorem spec_C8 (db : DB) (hwf : WF db) :
    (fetch_all_titles db).Nodup ∧
    (∀ t : String, t ∈ fetch_all_titles db ↔ t ∈ db.rows.map Row.title) ∧
    ((fetch_all_titles db).Pairwise fun a b =>
      lastInsertId db b < lastInsertId db a) := by
  have hrev : ((db.rows.reverse.map Row.id).Pairwise fun i j => j < i) := by
    rw [List.map_reverse, List.pairwise_reverse]
    exact hwf.1
  refine ⟨nodup_dedupFirst _, ?_, ?_⟩
  · intro t
    rw [show fetch_all_titles db = dedupFirst (db.rows.reverse.map Row.title)
      from rfl, mem_dedupFirst, List.map_reverse, List.mem_reverse]
  · refine (pairwise_firstIdx_dedupFirst _).imp_of_mem ?_
    intro a b ha hb hab
    rw [mem_dedupFirst] at ha hb
    exact firstRowId_lt db.rows.reverse a b hrev ha hb hab

/-- Witness for C8: a two-title store with ascending ids; the result is
duplicate-free and contains the stored title `"A"`. -/
theorem spec_C8_witness :
    (fetch_all_titles ⟨[⟨1, "A", "x", 1⟩, ⟨2, "B", "y", 2⟩], 3⟩).Nodup ∧
    ("A" : String) ∈ fetch_all_titles ⟨[⟨1, "A", "x", 1⟩, ⟨2, "B", "y", 2⟩], 3⟩ :=
  ⟨(spec_C8 ⟨[⟨1, "A", "x", 1⟩, ⟨2, "B", "y", 2⟩], 3⟩ (by decide)).1,
   ((spec_C8 ⟨[⟨1, "A", "x", 1⟩, ⟨2, "B", "y", 2⟩], 3⟩ (by decide)).2.1 "A").mpr
     (by decide)⟩

/-! ## The store invariant is preserved by every operation -/

theorem newRows_id_bounds :
    ∀ (ws : List (String × Int)) (n : Nat) (t : String) (r : Row),
      r ∈ newRows n t ws → n ≤ r.id ∧ r.id < n + ws.length := by
  intro ws
  induction ws with
  | nil => intro n t r hr; simp [newRows] at hr
  | cons p ws ih =>
    intro n t r hr
    obtain ⟨w, f⟩ := p
    rcases List.mem_cons.mp hr with rfl | hr'
    · refine ⟨Nat.le_refl n, ?_⟩
      show n < n + ((w, f) :: ws).length
      rw [List.length_cons]
      omega
    · rcases ih (n + 1) t r hr' with ⟨h1, h2⟩
      refine ⟨Nat.le_of_succ_le h1, ?_⟩
      rw [List.length_cons]
      omega

theorem newRows_id_pairwise :
    ∀ (ws : List (String × Int)) (n : Nat) (t : String),
      ((newRows n t ws).map Row.id).Pairwise (· < ·) := by
  intro ws
  induction ws with
  | nil => intro n t; simp [newRows]
  | cons p ws ih =>
    intro n t
    obtain ⟨w, f⟩ := p
    rw [newRows, List.map_cons, List.pairwise_cons]
    refine ⟨?_, ih (n + 1) t⟩
    intro j hj
    rcases List.mem_map.mp hj with ⟨r, hr, rfl⟩
    exact Nat.lt_of_succ_le (newRows_id_bounds ws (n + 1) t r hr).1

theorem WF_emptyDB : WF emptyDB := by decide

theorem WF_save (db : DB) (t : String) (ws : List (String × Int))
    (h : WF db) : WF (save_book_data db t ws) := by
  constructor
  · show ((db.rows ++ newRows db.nextId t ws).map Row.id).Pairwise (· < ·)
    rw [List.map_append, List.pairwise_append]
    refine ⟨h.1, newRows_id_pairwise ws db.nextId t, ?_⟩
    intro i hi j hj
    rcases List.mem_map.mp hi with ⟨r, hr, rfl⟩
    rcases List.mem_map.mp hj with ⟨r', hr', rfl⟩
    exact Nat.lt_of_lt_of_le (h.2 r hr) (newRows_id_bounds ws db.nextId t r' hr').1
  · intro r hr
    show r.id < db.nextId + ws.length
    rcases List.mem_append.mp hr with hr' | hr'
    · exact Nat.lt_of_lt_of_le (h.2 r hr') (Nat.le_add_right _ _)
    · exact (newRows_id_bounds ws db.nextId t r hr').2

theorem WF_delete (db : DB) (t : String) (h : WF db) :
    WF (delete_book_data db t) := by
  refine ⟨h.1.sublist ((List.filter_sublist _).map Row.id), ?_⟩
  intro r hr
  exact h.2 r ((List.filter_sublist _).subset hr)

theorem WF_delete_all (db : DB) : WF (delete_all_records db) :=
  ⟨List.Pairwise.nil, fun r hr => absurd hr (List.not_mem_nil r)⟩

end Gutenberg
